import Mathlib

/-!
Verification of the crd-bumper tool (tools/crd-bumper) against its
natural-language specification.

The Python sources are shallowly embedded: file contents are lists of
characters (`Str`), the in-memory buffer operations of
`pkg/fileutil.py` (`FileUtil`) are pure functions on `Str`, the PROJECT
descriptor of `pkg/project.py` is a list of `Resource` records, the git
commit-marker machinery of `crd-bumper.py` is a function over an
`Option Str` token, and the filesystem is a partial map from paths to
contents.  Fallible Python code (raising exceptions or calling
`sys.exit`) is embedded with the `PyResult` monad-like type below.
-/

/-- File contents and path fragments, as Python strings: lists of characters. -/
abbrev Str := List Char

/-- Turn a Lean string literal into the `Str` representation. -/
def S (s : String) : Str := s.data

/-- The newline character, used by the line-splitting operations of
`FileUtil` (`self._input_data.split("\n")`). -/
def nlc : Char := '\n'

/-- Outcome of a Python computation: a value, or an uncaught exception /
process exit. -/
inductive PErr where
  | exit (code : Nat)
  | exn (msg : String)
deriving DecidableEq

/-- Result of running an embedded Python function. -/
inductive PyResult (α : Type) where
  | ok (val : α)
  | raised (err : PErr)
deriving DecidableEq

/-- Sequencing of embedded Python computations: an exception propagates. -/
def PyResult.andThen {α β : Type} (r : PyResult α) (f : α → PyResult β) : PyResult β :=
  match r with
  | .ok v => f v
  | .raised e => .raised e

/-- Python `"\n".split` applied to a buffer: split on newline characters,
keeping empty fragments (`"a\n".split("\n") == ["a", ""]`). -/
def splitOnNl : Str → List Str
  | [] => [[]]
  | c :: t =>
    match splitOnNl t with
    | [] => [[c]]
    | l :: ls => if c = nlc then [] :: l :: ls else (c :: l) :: ls

/-- Rejoin split lines with a newline between consecutive lines; inverse of
`splitOnNl`. -/
def joinLines : List Str → Str
  | [] => []
  | [l] => l
  | l :: l' :: ls => l ++ nlc :: joinLines (l' :: ls)

/-- Python's substring test `needle in haystack`. -/
def isSub (n : Str) (h : Str) : Bool :=
  match h with
  | [] => n.isEmpty
  | _ :: t => n.isPrefixOf h || isSub n t

/-- Fuel-driven core of Python `str.replace` for a nonempty needle: scan left
to right, replacing non-overlapping occurrences of `n` by `r`.  The fuel is
instantiated with the haystack length, which is always sufficient. -/
def replFuel (n r : Str) : Nat → Str → Str
  | 0, h => h
  | _ + 1, [] => []
  | fuel + 1, c :: t =>
    if n.isPrefixOf (c :: t) then r ++ replFuel n r fuel ((c :: t).drop n.length)
    else c :: replFuel n r fuel t

/-- Python `h.replace(n, r)`: replace every non-overlapping occurrence of `n`
in `h` by `r`; an empty needle inserts `r` before every character and at the
end, as in Python. -/
def pyReplace (n r h : Str) : Str :=
  if n.isEmpty then r ++ h.foldr (fun c acc => c :: r ++ acc) []
  else replFuel n r h.length h

/-- `FileUtil.find_in_file`: the first line of the buffer having the given
substring, or `none`. -/
def find_in_file (substr : Str) (data : Str) : Option Str :=
  (splitOnNl data).find? (fun line => isSub substr line)

/-- `FileUtil.delete_from_file` on the buffer: drop every line equal to
`from_str`, rebuilding the buffer by appending `"\n"` to each surviving line;
returns the `changed` flag together with the new buffer. -/
def delete_from_file (from_str : Str) (data : Str) : Bool × Str :=
  (splitOnNl data).foldl
    (fun acc line =>
      if line ≠ from_str then (acc.1, acc.2 ++ line ++ [nlc]) else (true, acc.2))
    (false, [])

/-- `FileUtil.replace_in_file` on the buffer: Python `str.replace` plus a
flag reporting whether anything changed. -/
def replace_in_file (from_str to_str data : Str) : Bool × Str :=
  let d := pyReplace from_str to_str data
  (d ≠ data, d)

/-- The filesystem: a partial map from paths to file contents. -/
def FS : Type := Str → Option Str

/-- State of a `FileUtil` object: the dry-run flag, the file path, and the
lazily populated buffer `_input_data`. -/
structure FileUtilSt where
  dryrun : Bool
  fpath : Str
  input_data : Option Str

/-- Write (create or overwrite) one file. -/
def fsWrite (fs : FS) (p : Str) (d : Str) : FS :=
  fun q => if q = p then some d else fs q

/-- `os.rename src dst`: afterwards `dst` holds what `src` held and `src` is
gone. -/
def fsRename (fs : FS) (src dst : Str) : FS :=
  fun q => if q = dst then fs src else if q = src then none else fs q

/-- `FileUtil.store`: if the buffer holds data, write it to the sibling path
`<fpath>.new`; then, unless in dry-run mode, rename that temp file over the
original. -/
def store (f : FileUtilSt) (fs : FS) : FS :=
  match f.input_data with
  | none => fs
  | some d =>
    let tmp := f.fpath ++ S ".new"
    let fs1 := fsWrite fs tmp d
    if f.dryrun then fs1 else fsRename fs1 tmp f.fpath

/-- `FileUtil.read`: populate the buffer from the file on first access; a
failing `open` (here: a missing file) prints and re-raises the exception. -/
def read (fs : FS) (f : FileUtilSt) : PyResult FileUtilSt :=
  match f.input_data with
  | some _ => .ok f
  | none =>
    match fs f.fpath with
    | some content => .ok { f with input_data := some content }
    | none => .raised (.exn "FileNotFoundError")

/-- `FileUtil.append`: read the file, defaulting an absent buffer to the
empty string, then append the given text to the buffer. -/
def appendFile (fs : FS) (f : FileUtilSt) (line : Str) : PyResult FileUtilSt :=
  (read fs f).andThen fun f1 =>
    let d := f1.input_data.getD []
    .ok { f1 with input_data := some (d ++ line) }

-- Basic lemmas about the string model.

theorem splitOnNl_ne_nil (t : Str) : splitOnNl t ≠ [] := by
  cases t with
  | nil => simp [splitOnNl]
  | cons c t =>
    simp only [splitOnNl]
    cases splitOnNl t with
    | nil => simp
    | cons l ls =>
      by_cases hc : c = nlc <;> simp [hc]

theorem joinLines_splitOnNl (t : Str) : joinLines (splitOnNl t) = t := by
  induction t with
  | nil => simp [splitOnNl, joinLines]
  | cons c t ih =>
    simp only [splitOnNl]
    rcases hs : splitOnNl t with _ | ⟨l, ls⟩
    · exact absurd hs (splitOnNl_ne_nil t)
    · rw [hs] at ih
      by_cases hc : c = nlc
      · subst hc
        simpa [joinLines] using ih
      · simp only [if_neg hc]
        cases ls with
        | nil => simpa [joinLines] using ih
        | cons l' ls' => simpa [joinLines] using ih

/-- Each line followed by a terminating newline, as rebuilt by
`delete_from_file`. -/
def joinNlTerm : List Str → Str
  | [] => []
  | l :: ls => l ++ nlc :: joinNlTerm ls

theorem joinNlTerm_eq_joinLines (ls : List Str) (h : ls ≠ []) :
    joinNlTerm ls = joinLines ls ++ [nlc] := by
  induction ls with
  | nil => exact absurd rfl h
  | cons l ls ih =>
    cases ls with
    | nil => simp [joinNlTerm, joinLines]
    | cons l' ls' =>
      show l ++ nlc :: joinNlTerm (l' :: ls') = (l ++ nlc :: joinLines (l' :: ls')) ++ [nlc]
      rw [ih (by simp)]
      simp

theorem delete_foldl_no_match (s : Str) (lines : List Str) :
    ∀ (b : Bool) (acc : Str), (∀ l ∈ lines, l ≠ s) →
      (lines.foldl
        (fun acc line =>
          if line ≠ s then (acc.1, acc.2 ++ line ++ [nlc]) else (true, acc.2))
        (b, acc)) = (b, acc ++ joinNlTerm lines) := by
  induction lines with
  | nil => intro b acc _; simp [joinNlTerm]
  | cons l ls ih =>
    intro b acc hno
    have hl : l ≠ s := hno l (by simp)
    simp only [List.foldl_cons, if_pos hl]
    rw [ih b (acc ++ l ++ [nlc]) (fun x hx => hno x (by simp [hx]))]
    simp [joinNlTerm]

/-- C10: on a buffer that ends in a newline and has no line equal to `s`,
`delete_from_file` reports no change (`False`) yet rewrites the buffer to the
original content plus one extra trailing newline, so a `False` result does not
mean the stored content equals the original. -/
theorem delete_from_file_untouched_adds_newline (data s : Str)
    (_h1 : data.getLast? = some nlc)
    (h2 : ∀ l ∈ splitOnNl data, l ≠ s) :
    delete_from_file s data = (false, data ++ [nlc]) ∧ data ++ [nlc] ≠ data := by
  constructor
  · unfold delete_from_file
    rw [delete_foldl_no_match s (splitOnNl data) false [] h2]
    rw [joinNlTerm_eq_joinLines _ (splitOnNl_ne_nil data), joinLines_splitOnNl]
    simp
  · intro h
    have := congrArg List.length h
    simp at this

/-- Witness for C10 at a concrete buffer. -/
theorem delete_from_file_untouched_adds_newline_witness :
    delete_from_file (S "x") (S "a\n") = (false, S "a\n" ++ [nlc]) ∧
      S "a\n" ++ [nlc] ≠ S "a\n" :=
  delete_from_file_untouched_adds_newline (S "a\n") (S "x") (by decide) (by decide)

theorem append_suffix_ne (l m : Str) (hm : m ≠ []) : l ++ m ≠ l := by
  intro h
  have hlen := congrArg List.length h
  simp at hlen
  exact hm hlen

/-- C7: `store` on a populated buffer writes the buffered content to the
sibling temp path `<fpath>.new`; with dry-run off it then renames the temp
file over the original (so the original holds the data and the temp file is
gone), while with dry-run on the temp file is left in place and the original
is untouched.  Other paths are never touched, and an unpopulated buffer
stores nothing. -/
theorem store_spec (fs : FS) (dr : Bool) (p d : Str) :
    (store ⟨dr, p, some d⟩ fs) (p ++ S ".new") = (if dr then some d else none) ∧
    (store ⟨dr, p, some d⟩ fs) p = (if dr then fs p else some d) ∧
    (∀ q, q ≠ p → q ≠ p ++ S ".new" → (store ⟨dr, p, some d⟩ fs) q = fs q) ∧
    store ⟨dr, p, none⟩ fs = fs := by
  have hne : p ++ S ".new" ≠ p := append_suffix_ne p (S ".new") (by decide)
  cases dr with
  | true =>
    refine ⟨?_, ?_, ?_, rfl⟩
    · simp [store, fsWrite]
    · have hne' : p ≠ p ++ S ".new" := fun h => hne h.symm
      simp [store, fsWrite, hne']
    · intro q _ hq2; simp [store, fsWrite, hq2]
  | false =>
    refine ⟨?_, ?_, ?_, rfl⟩
    · simp [store, fsWrite, fsRename, hne]
    · simp [store, fsWrite, fsRename]
    · intro q hq1 hq2; simp [store, fsWrite, fsRename, hq1, hq2]

/-- Witness for C7 at a concrete filesystem, path and buffer. -/
theorem store_spec_witness :
    (store ⟨true, S "f", some (S "D")⟩ (fun q => if q = S "f" then some (S "old") else none))
        (S "f" ++ S ".new") = some (S "D") ∧
    (store ⟨false, S "f", some (S "D")⟩ (fun q => if q = S "f" then some (S "old") else none))
        (S "g") = (fun q => if q = S "f" then some (S "old") else none) (S "g") := by
  constructor
  · exact (store_spec (fun q => if q = S "f" then some (S "old") else none) true (S "f") (S "D")).1
  · exact (store_spec (fun q => if q = S "f" then some (S "old") else none) false (S "f") (S "D")).2.2.1
      (S "g") (by decide) (by decide)

/-- C8: calling `append` on a `FileUtil` whose path does not exist raises
`FileNotFoundError` (re-raised from `read`), instead of creating an empty
buffer: the `if self._input_data is None` branch inside `append` is
unreachable.  This is the behaviour the code actually has at the failing
input; the surrounding tool (for example `ConversionGen.mk_doc_go` in
dry-run mode, which skips the `shutil.copy2` that would create the file)
relies on `append` tolerating a missing file. -/
theorem append_missing_file_raises (dr : Bool) (p line : Str) :
    appendFile (fun _ => none) ⟨dr, p, none⟩ line = .raised (.exn "FileNotFoundError") := rfl

-- The step machinery of crd-bumper.py.

/-- Result of `find_next_cmd`: a step to run, the empty-list sentinel
(`[]`, "nothing left to do"), or Python `None` (token not found). -/
inductive NextCmd where
  | step (name : Str)
  | allDone
  | unknown
deriving DecidableEq

/-- The `for x in rev_list` loop of `find_next_cmd`: `nxt` carries
`next_cmd_elem`, updated to `x` after every non-matching iteration. -/
def fnc_loop (pc : Str) : Str → List Str → Option Str
  | _, [] => none
  | nxt, x :: rest => if x = pc then some nxt else fnc_loop pc x rest

/-- `find_next_cmd` of crd-bumper.py over the ordered step-name list: no
recorded marker yields the first step; a marker equal to the last step's name
yields the sentinel; otherwise scan the reversed list for the marker,
returning the element seen just before it (i.e. the successor in the original
order), and `unknown` (Python `None`) if the marker is not found. -/
def find_next_cmd (prev : Option Str) (ops : List Str) : PyResult NextCmd :=
  match prev with
  | none =>
    match ops with
    | [] => .raised (.exn "IndexError")
    | o :: _ => .ok (.step o)
  | some pc =>
    match ops.getLast? with
    | none => .raised (.exn "IndexError")
    | some last =>
      if pc = last then .ok .allDone
      else
        match fnc_loop pc last ops.reverse with
        | some nxt => .ok (.step nxt)
        | none => .ok .unknown

theorem fnc_loop_not_mem (pc : Str) (l : List Str) (h : pc ∉ l) :
    ∀ nxt, fnc_loop pc nxt l = none := by
  induction l with
  | nil => intro nxt; rfl
  | cons x rest ih =>
    intro nxt
    have hx : x ≠ pc := fun he => h (by simp [he])
    simp only [fnc_loop, if_neg hx]
    exact ih (fun hm => h (by simp [hm])) x

theorem fnc_loop_found (pc : Str) (u w : List Str) (h : pc ∉ u) :
    ∀ nxt, fnc_loop pc nxt (u ++ pc :: w) = some (u.getLastD nxt) := by
  induction u with
  | nil => intro nxt; simp [fnc_loop]
  | cons x u' ih =>
    intro nxt
    have hx : x ≠ pc := fun he => h (by simp [he])
    show (if x = pc then some nxt else fnc_loop pc x (u' ++ pc :: w)) = _
    rw [if_neg hx, ih (fun hm => h (by simp [hm])) x, List.getLastD_cons]

/-- C1: for a duplicate-free, nonempty ordered step list, `find_next_cmd`
returns the first step when no commit marker is recorded; the "nothing left
to do" sentinel when the marker is the terminal step's name; the step
immediately after the marker's position when the marker names any
non-terminal step; and Python `None` (undefined transition, which makes the
orchestrator abort) when the marker matches no step. -/
theorem find_next_cmd_spec (ops : List Str) (h0 : ops ≠ []) (hnd : ops.Nodup) :
    find_next_cmd none ops = .ok (.step (ops.head h0)) ∧
    find_next_cmd (some (ops.getLast h0)) ops = .ok .allDone ∧
    (∀ i (hi : i < ops.length) (hi2 : i + 1 < ops.length),
      find_next_cmd (some ops[i]) ops = .ok (.step ops[i + 1])) ∧
    (∀ t, t ∉ ops → find_next_cmd (some t) ops = .ok .unknown) := by
  refine ⟨?_, ?_, ?_, ?_⟩
  · cases ops with
    | nil => exact absurd rfl h0
    | cons o rest => rfl
  · simp [find_next_cmd, List.getLast?_eq_getLast ops h0]
  · intro i hi hi2
    have hlen1 : ops.length - 1 < ops.length := by omega
    have hlast : ops.getLast h0 = ops[ops.length - 1] := List.getLast_eq_getElem ops h0
    have hne : ops[i] ≠ ops.getLast h0 := by
      intro he
      rw [hlast] at he
      have := (List.Nodup.getElem_inj_iff hnd).mp he
      omega
    have htake : ops.take (i + 1) = ops.take i ++ [ops[i]] := by
      rw [List.take_succ]
      simp [List.getElem?_eq_getElem hi]
    have hdecomp : ops = ops.take i ++ [ops[i]] ++ ops.drop (i + 1) := by
      rw [← htake, List.take_append_drop]
    have hnotdrop : ops[i] ∉ ops.drop (i + 1) := by
      rw [hdecomp] at hnd
      have hdisj := (List.nodup_append.mp hnd).2.2
      exact hdisj (List.mem_append_right _ (by simp))
    have hrev : ops.reverse = (ops.drop (i + 1)).reverse ++ ops[i] :: (ops.take i).reverse := by
      conv_lhs => rw [hdecomp]
      simp
    have hdropne : ops.drop (i + 1) ≠ [] := by
      intro h
      have := List.drop_eq_nil_iff.mp h
      omega
    have hrevne : (ops.drop (i + 1)).reverse ≠ [] := by
      simpa using hdropne
    have hloop : fnc_loop ops[i] (ops.getLast h0) ops.reverse
        = some ((ops.drop (i + 1)).reverse.getLastD (ops.getLast h0)) := by
      rw [hrev]
      exact fnc_loop_found ops[i] _ _ (by simpa using hnotdrop) _
    have hgl : (ops.drop (i + 1)).reverse.getLastD (ops.getLast h0) = ops[i + 1] := by
      rw [List.getLastD_eq_getLast?, List.getLast?_reverse, List.head?_drop,
        List.getElem?_eq_getElem hi2]
      rfl
    rw [hgl] at hloop
    simp [find_next_cmd, List.getLast?_eq_getLast ops h0, if_neg hne, hloop]
  · intro t ht
    have hne : t ≠ ops.getLast h0 := by
      intro he
      exact ht (he ▸ List.getLast_mem h0)
    have hloop : fnc_loop t (ops.getLast h0) ops.reverse = none :=
      fnc_loop_not_mem t ops.reverse (by simpa using ht) _
    simp [find_next_cmd, List.getLast?_eq_getLast ops h0, if_neg hne, hloop]

/-- The ordered step list of `main` in crd-bumper.py. -/
def operation_order : List Str :=
  [S "create-apis", S "copy-api-content", S "mv-webhooks", S "conversion-webhooks",
   S "conversion-gen", S "bump-controllers", S "bump-apis", S "auto-gens"]

/-- Witness for C1 on the tool's real step list. -/
theorem find_next_cmd_spec_witness :
    find_next_cmd none operation_order = .ok (.step (S "create-apis")) ∧
    find_next_cmd (some (S "create-apis")) operation_order = .ok (.step (S "copy-api-content")) ∧
    find_next_cmd (some (S "auto-gens")) operation_order = .ok .allDone ∧
    find_next_cmd (some (S "bogus")) operation_order = .ok .unknown := by
  have h := find_next_cmd_spec operation_order (by decide) (by decide)
  exact ⟨h.1, h.2.2.1 0 (by decide) (by decide), h.2.1, h.2.2.2 (S "bogus") (by decide)⟩

/-- The early-exit dispatch of `main` on the result of `find_next_cmd`: an
unresolvable next step prints and exits with code 1, and so does the
"The last command has been done." case; only a resolved step lets `main`
proceed (no exit here). -/
def main_dispatch : NextCmd → Option Nat
  | .unknown => some 1
  | .allDone => some 1
  | .step _ => none

/-- C3 fails on the code: in the graceful "nothing left to do" case (the
recorded marker names the terminal step `auto-gens`), `main` calls
`sys.exit(1)`, not exit code 0. -/
theorem main_done_exits_nonzero :
    find_next_cmd (some (S "auto-gens")) operation_order = .ok .allDone ∧
    main_dispatch .allDone = some 1 ∧ main_dispatch .allDone ≠ some 0 := by
  refine ⟨by decide, rfl, by decide⟩

/-- C3 amended: when the most recent commit's marker names the terminal step,
`main` exits with code 1 (the same code as the unresolvable-next-step case);
it proceeds past this dispatch only when a concrete next step was resolved. -/
theorem main_dispatch_spec :
    main_dispatch .allDone = some 1 ∧ main_dispatch .unknown = some 1 ∧
    (∀ s, main_dispatch (.step s) = none) ∧
    find_next_cmd (some (S "auto-gens")) operation_order = .ok .allDone :=
  ⟨rfl, rfl, fun _ => rfl, by decide⟩

-- Hub/spoke classification (pkg/hub_spoke_util.py).

/-- The conversion source file inspected by the classification:
`api/<ver>/conversion.go`. -/
def conversionPath (ver : Str) : Str := S "api/" ++ ver ++ S "/conversion.go"

/-- `HubSpokeUtil.is_spoke`: false when `api/<ver>/conversion.go` is missing,
else whether some line has the spoke conversion-method marker. -/
def is_spoke (fs : FS) (ver : Str) : Bool :=
  match fs (conversionPath ver) with
  | none => false
  | some content => (find_in_file (S " ConvertTo(dstRaw conversion.Hub) ") content).isSome

/-- `HubSpokeUtil.is_hub`: false when `api/<ver>/conversion.go` is missing,
else whether some line has the hub marker-method text. -/
def is_hub (fs : FS) (ver : Str) : Bool :=
  match fs (conversionPath ver) with
  | none => false
  | some content => (find_in_file (S " Hub() ") content).isSome

/-- A conversion.go content carrying both the hub marker method line and the
spoke ConvertTo conversion-method line. -/
def bothMarkersContent : Str :=
  S "func (*A) Hub() x\nfunc (a *A) ConvertTo(dstRaw conversion.Hub) error\n"

/-- A filesystem whose only file is `api/v9/conversion.go` with both markers. -/
def bothFS : FS := fun p => if p = conversionPath (S "v9") then some bothMarkersContent else none

/-- C4 fails on the code: `is_hub` and `is_spoke` are independent substring
checks, so a conversion.go containing both the hub marker method line and the
ConvertTo conversion-method line classifies as hub and spoke at once. -/
theorem is_hub_is_spoke_both_true :
    is_hub bothFS (S "v9") = true ∧ is_spoke bothFS (S "v9") = true := by decide

/-- C4 amended: `is_hub` and `is_spoke` are each a bare substring search of
`api/<ver>/conversion.go`; they are both true exactly when the file exists
and contains both marker substrings on some line, so mutual exclusivity holds
only for files that do not carry both markers. -/
theorem is_hub_is_spoke_characterization (fs : FS) (ver : Str) :
    (is_hub fs ver && is_spoke fs ver) = true ↔
      ∃ c, fs (conversionPath ver) = some c ∧
        (find_in_file (S " Hub() ") c).isSome ∧
        (find_in_file (S " ConvertTo(dstRaw conversion.Hub) ") c).isSome := by
  cases hc : fs (conversionPath ver) <;> simp [is_hub, is_spoke, hc]

-- The create-apis precondition (pkg/create_apis.py and crd-bumper.py).

/-- `CreateApis.prev_is_hub`: iterate over the `os.walk("api")` entries (the
`dir_names` component of each directory visited, top-down, the first entry
being the API version directories directly under `api/`); on the first entry
with more than one subdirectory, return `is_hub(prev_ver)` (passed here as
`isHubPrev`); if no entry branches, return `True`. -/
def prev_is_hub : List (List Str) → Bool → Bool
  | [], _ => true
  | e :: rest, isHubPrev => if e.length > 1 then isHubPrev else prev_is_hub rest isHubPrev

/-- Outcome of the `create_apis` step wrapper in crd-bumper.py. -/
inductive StepGate where
  | precondFailure
  | proceeded
deriving DecidableEq

/-- The gate at the top of `create_apis` in crd-bumper.py: when
`prev_is_hub()` is `False` it prints an error and returns `False` before
calling `createapis.create()` or touching any file; otherwise the step
proceeds. -/
def create_apis_cmd (walk : List (List Str)) (isHubPrev : Bool) : StepGate :=
  if prev_is_hub walk isHubPrev = false then .precondFailure else .proceeded

/-- C5 fails on the code: with a single API version directory (`api/v1`)
whose own subtree has a directory with two subdirectories, the walk still
consults the hub classification, and the precondition fails for a
non-hub `--prev-ver` even though only one version directory exists. -/
theorem prev_is_hub_single_version_can_fail :
    prev_is_hub [[S "v1"], [S "a", S "b"]] false = false ∧
    create_apis_cmd [[S "v1"], [S "a", S "b"]] false = .precondFailure := by decide

/-- C5 amended: the precondition passes regardless of classification exactly
when no directory in the whole recursive walk of `api/` (not only `api/`
itself) has more than one subdirectory; as soon as any walked entry branches
— in particular when more than one API version directory exists — the check
returns the hub classification of `--prev-ver`, and the step reports a
precondition failure (before scaffolding or editing anything) precisely when
that check is false. -/
theorem prev_is_hub_spec (walk : List (List Str)) (isHubPrev : Bool) :
    prev_is_hub walk isHubPrev = ((walk.all fun e => decide (e.length ≤ 1)) || isHubPrev) ∧
    (create_apis_cmd walk isHubPrev = .precondFailure ↔ prev_is_hub walk isHubPrev = false) := by
  constructor
  · induction walk with
    | nil => simp [prev_is_hub]
    | cons e rest ih =>
      by_cases he : e.length > 1
      · have hle : ¬ e.length ≤ 1 := by omega
        simp [prev_is_hub, he, hle]
      · have hle : e.length ≤ 1 := by omega
        simp [prev_is_hub, he, hle, ih]
  · unfold create_apis_cmd
    by_cases h : prev_is_hub walk isHubPrev = false <;> simp [h]

-- The PROJECT descriptor (pkg/project.py).

/-- One entry of the `resources` list in the PROJECT file: whether the entry
has an `api` section, its group, kind, version, and (optionally) its
`webhooks` block, kept opaque. -/
structure Resource where
  api : Bool
  group : Str
  kind : Str
  version : Str
  webhooks : Option Str
deriving DecidableEq

/-- The PROJECT descriptor: its `resources` list. -/
structure Project where
  resources : List Resource
deriving DecidableEq

/-- Python string comparison: lexicographic on code points. -/
def strLe (a b : Str) : Bool :=
  match a, b with
  | [], _ => true
  | _ :: _, [] => false
  | c :: s, d :: t => if c = d then strLe s t else decide (c < d)

/-- Insertion into a sorted list, the building block of `list.sort()`. -/
def insertStr (x : Str) : List Str → List Str
  | [] => [x]
  | y :: t => if strLe x y then x :: y :: t else y :: insertStr x t

/-- Python `list.sort()` on a list of strings (any stable comparison sort
computes the same list, since equal keys are identical). -/
def sortStr : List Str → List Str
  | [] => []
  | x :: t => insertStr x (sortStr t)

/-- `Project.kinds`: the kinds of all resource entries that have an `api`
section at the given version, collected in order and then sorted in place. -/
def Project.kinds (p : Project) (version : Str) : List Str :=
  sortStr ((p.resources.filter (fun e => e.api && decide (e.version = version))).map
    (fun e => e.kind))

theorem strLe_total (a b : Str) : strLe a b = true ∨ strLe b a = true := by
  induction a generalizing b with
  | nil => left; rfl
  | cons c s ih =>
    cases b with
    | nil => right; rfl
    | cons d t =>
      by_cases hcd : c = d
      · subst hcd
        rcases ih t with h | h
        · left; simpa [strLe] using h
        · right; simpa [strLe] using h
      · rcases lt_or_gt_of_ne hcd with h | h
        · left; simp [strLe, hcd, h]
        · right
          have hdc : d ≠ c := fun he => hcd he.symm
          simp [strLe, hdc, h]

theorem strLe_trans (a b c : Str) (h1 : strLe a b = true) (h2 : strLe b c = true) :
    strLe a c = true := by
  induction a generalizing b c with
  | nil => rfl
  | cons x s ih =>
    cases b with
    | nil => simp [strLe] at h1
    | cons y t =>
      cases c with
      | nil => simp [strLe] at h2
      | cons z u =>
        by_cases hxy : x = y
        · subst hxy
          by_cases hyz : x = z
          · subst hyz
            simp only [strLe, if_pos rfl] at h1 h2 ⊢
            exact ih t u h1 h2
          · simp only [strLe, if_pos rfl] at h1
            simp only [strLe, if_neg hyz] at h2 ⊢
            exact h2
        · simp only [strLe, if_neg hxy] at h1
          have hlt1 : x < y := of_decide_eq_true h1
          by_cases hyz : y = z
          · have hxz : x ≠ z := fun he => hxy (he.trans hyz.symm)
            have hlt : x < z := hyz ▸ hlt1
            simp [strLe, if_neg hxz, hlt]
          · simp only [strLe, if_neg hyz] at h2
            have hlt2 : y < z := of_decide_eq_true h2
            have hlt : x < z := lt_trans hlt1 hlt2
            have hxz : x ≠ z := ne_of_lt hlt
            simp [strLe, if_neg hxz, hlt]

theorem insertStr_perm (x : Str) (l : List Str) : (insertStr x l).Perm (x :: l) := by
  induction l with
  | nil => simp [insertStr]
  | cons y t ih =>
    by_cases h : strLe x y = true
    · simp [insertStr, h]
    · simp only [insertStr, if_neg h]
      exact ((ih.cons y).trans (List.Perm.swap x y t))

theorem sortStr_perm (l : List Str) : (sortStr l).Perm l := by
  induction l with
  | nil => simp [sortStr]
  | cons x t ih =>
    exact (insertStr_perm x (sortStr t)).trans (ih.cons x)

theorem insertStr_sorted (x : Str) (l : List Str)
    (h : l.Pairwise (fun a b => strLe a b = true)) :
    (insertStr x l).Pairwise (fun a b => strLe a b = true) := by
  induction l with
  | nil => simp [insertStr]
  | cons y t ih =>
    rcases List.pairwise_cons.mp h with ⟨hy, ht⟩
    by_cases hxy : strLe x y = true
    · simp only [insertStr, if_pos hxy]
      refine List.pairwise_cons.mpr ⟨?_, h⟩
      intro a ha
      rcases List.mem_cons.mp ha with rfl | ha
      · exact hxy
      · exact strLe_trans x y a hxy (hy a ha)
    · simp only [insertStr, if_neg hxy]
      have hyx : strLe y x = true := (strLe_total x y).resolve_left hxy
      refine List.pairwise_cons.mpr ⟨?_, ih ht⟩
      intro a ha
      have : a ∈ x :: t := (insertStr_perm x t).mem_iff.mp ha
      rcases List.mem_cons.mp this with rfl | ha'
      · exact hyx
      · exact hy a ha'

theorem sortStr_sorted (l : List Str) :
    (sortStr l).Pairwise (fun a b => strLe a b = true) := by
  induction l with
  | nil => simp [sortStr]
  | cons x t ih => exact insertStr_sorted x (sortStr t) ih

/-- C9 amended: `kinds(version)` returns, in ascending lexicographic order, a
permutation of the kind names of all entries that have an `api` section at
the given version — one occurrence per matching record, so duplicate
(Kind, version) records yield duplicate names (no deduplication). -/
theorem kinds_sorted_perm (p : Project) (v : Str) :
    (Project.kinds p v).Pairwise (fun a b => strLe a b = true) ∧
    (Project.kinds p v).Perm
      ((p.resources.filter (fun e => e.api && decide (e.version = v))).map
        (fun e => e.kind)) :=
  ⟨sortStr_sorted _, sortStr_perm _⟩

/-- A descriptor holding the same (Kind, version) record twice. -/
def dupProject : Project :=
  ⟨[⟨true, S "g", S "A", S "v1", none⟩, ⟨true, S "g", S "A", S "v1", none⟩]⟩

/-- C9 fails on the code: with two records for the same (Kind, version) pair,
`kinds` returns the kind name twice — sorted, but not deduplicated. -/
theorem kinds_not_deduplicated :
    Project.kinds dupProject (S "v1") = [S "A", S "A"] ∧
    ¬ (Project.kinds dupProject (S "v1")).Nodup := by decide

-- Occurrence lemmas for the substring and replace operations.

theorem isPre_iff (n : Str) : ∀ h : Str, n.isPrefixOf h = true ↔ ∃ w, h = n ++ w := by
  induction n with
  | nil => intro h; simp [List.isPrefixOf]
  | cons c s ih =>
    intro h
    cases h with
    | nil => simp [List.isPrefixOf]
    | cons d t =>
      simp only [List.isPrefixOf, Bool.and_eq_true, beq_iff_eq, ih t]
      constructor
      · rintro ⟨rfl, w, rfl⟩
        exact ⟨w, rfl⟩
      · rintro ⟨w, hw⟩
        rcases List.cons.injEq .. ▸ hw with ⟨rfl, rfl⟩
        exact ⟨rfl, w, rfl⟩

theorem isSub_iff (n : Str) : ∀ h : Str, isSub n h = true ↔ ∃ u v, h = u ++ n ++ v := by
  intro h
  induction h with
  | nil =>
    simp only [isSub, List.isEmpty_iff]
    constructor
    · rintro rfl; exact ⟨[], [], rfl⟩
    · rintro ⟨u, v, huv⟩
      have := huv.symm
      simp only [List.append_eq_nil] at this
      exact this.1.2
  | cons c t ih =>
    simp only [isSub, Bool.or_eq_true, isPre_iff, ih]
    constructor
    · rintro (⟨w, hw⟩ | ⟨u, v, huv⟩)
      · exact ⟨[], w, by simpa using hw⟩
      · exact ⟨c :: u, v, by simp [huv]⟩
    · rintro ⟨u, v, huv⟩
      cases u with
      | nil => exact Or.inl ⟨v, by simpa using huv⟩
      | cons c' u' =>
        rcases List.cons.injEq .. ▸ huv with ⟨rfl, ht⟩
        exact Or.inr ⟨u', v, ht⟩

theorem isSub_ne_nil (n l : Str) (h : isSub n l = true) (hn : n ≠ []) : l ≠ [] := by
  rcases (isSub_iff n l).mp h with ⟨u, v, rfl⟩
  intro he
  simp only [List.append_eq_nil] at he
  exact hn he.1.2

theorem replFuel_has_occ (n r : Str) (hn : n ≠ []) :
    ∀ (fuel : Nat) (h : Str), h.length ≤ fuel → (∃ u v, h = u ++ n ++ v) →
      ∃ u' v', replFuel n r fuel h = u' ++ r ++ v' := by
  intro fuel
  induction fuel with
  | zero =>
    intro h hlen hocc
    rcases hocc with ⟨u, v, rfl⟩
    rw [Nat.le_zero, List.length_eq_zero] at hlen
    simp only [List.append_eq_nil] at hlen
    exact absurd hlen.1.2 hn
  | succ fuel ih =>
    intro h hlen hocc
    cases h with
    | nil =>
      rcases hocc with ⟨u, v, he⟩
      have := he.symm
      simp only [List.append_eq_nil] at this
      exact absurd this.1.2 hn
    | cons c t =>
      by_cases hp : n.isPrefixOf (c :: t) = true
      · exact ⟨[], replFuel n r fuel ((c :: t).drop n.length), by simp [replFuel, hp]⟩
      · rcases hocc with ⟨u, v, huv⟩
        cases u with
        | nil =>
          exact absurd ((isPre_iff n (c :: t)).mpr ⟨v, by simpa using huv⟩) hp
        | cons c' u' =>
          rcases List.cons.injEq .. ▸ huv with ⟨rfl, ht⟩
          have hlt : t.length ≤ fuel := by
            simpa [Nat.succ_le_succ_iff] using hlen
          rcases ih t hlt ⟨u', v, ht⟩ with ⟨u'', v'', hrw⟩
          refine ⟨c :: u'', v'', ?_⟩
          simp [replFuel, hp, hrw]

theorem pyReplace_has_occ (n r h : Str) (hn : n ≠ []) (hocc : isSub n h = true) :
    ∃ u v, pyReplace n r h = u ++ r ++ v := by
  have hne : n.isEmpty = false := by
    cases n with
    | nil => exact absurd rfl hn
    | cons a b => rfl
  unfold pyReplace
  rw [hne]
  simp only [Bool.false_eq_true, if_false]
  exact replFuel_has_occ n r hn h.length h (le_refl _) ((isSub_iff n h).mp hocc)

theorem mem_splitOnNl_occ (line c : Str) (h : line ∈ splitOnNl c) :
    ∃ u v, c = u ++ line ++ v := by
  induction c generalizing line with
  | nil =>
    simp only [splitOnNl, List.mem_singleton] at h
    exact ⟨[], [], by simp [h]⟩
  | cons ch t ih =>
    rcases hs : splitOnNl t with _ | ⟨l, ls⟩
    · exact absurd hs (splitOnNl_ne_nil t)
    · have hdef : splitOnNl (ch :: t) = if ch = nlc then [] :: l :: ls else (ch :: l) :: ls := by
        rw [splitOnNl, hs]
      rw [hdef] at h
      by_cases hc : ch = nlc
      · rw [if_pos hc] at h
        rcases List.mem_cons.mp h with rfl | hmem
        · exact ⟨[], ch :: t, rfl⟩
        · rcases ih line (by rw [hs]; exact hmem) with ⟨u, v, rfl⟩
          exact ⟨ch :: u, v, rfl⟩
      · rw [if_neg hc] at h
        rcases List.mem_cons.mp h with rfl | hmem
        · have hjoin : joinLines (l :: ls) = t := by rw [← hs, joinLines_splitOnNl]
          cases ls with
          | nil =>
            simp only [joinLines] at hjoin
            exact ⟨[], [], by simp [hjoin]⟩
          | cons l2 ls2 =>
            simp only [joinLines] at hjoin
            exact ⟨[], nlc :: joinLines (l2 :: ls2), by simp [← hjoin]⟩
        · rcases ih line (by rw [hs]; exact List.mem_cons_of_mem l hmem) with ⟨u, v, rfl⟩
          exact ⟨ch :: u, v, rfl⟩

theorem splitOnNl_head_occ (m : Str) (hm : nlc ∉ m) :
    ∀ v : Str, ∃ w ls, splitOnNl (m ++ v) = (m ++ w) :: ls := by
  induction m with
  | nil =>
    intro v
    rcases hs : splitOnNl v with _ | ⟨l, ls⟩
    · exact absurd hs (splitOnNl_ne_nil v)
    · exact ⟨l, ls, by simpa using hs⟩
  | cons c m' ih =>
    intro v
    have hc : c ≠ nlc := fun he => hm (by simp [he])
    rcases ih (fun hmem => hm (List.mem_cons_of_mem c hmem)) v with ⟨w, ls, hs⟩
    refine ⟨w, ls, ?_⟩
    show splitOnNl (c :: (m' ++ v)) = ((c :: m') ++ w) :: ls
    rw [splitOnNl, hs]
    simp [if_neg hc]

theorem nlfree_sub_line (m : Str) (hm : nlc ∉ m) :
    ∀ u v : Str, ∃ line, line ∈ splitOnNl (u ++ m ++ v) ∧ isSub m line = true := by
  intro u
  induction u with
  | nil =>
    intro v
    rcases splitOnNl_head_occ m hm v with ⟨w, ls, hs⟩
    refine ⟨m ++ w, ?_, (isSub_iff m (m ++ w)).mpr ⟨[], w, by simp⟩⟩
    rw [show ([] : Str) ++ m ++ v = m ++ v by simp, hs]
    simp
  | cons c u' ih =>
    intro v
    rcases ih v with ⟨line, hmem, hsub⟩
    have hshape : (c :: u') ++ m ++ v = c :: (u' ++ m ++ v) := by simp
    rw [hshape]
    rcases hs : splitOnNl (u' ++ m ++ v) with _ | ⟨l, ls⟩
    · exact absurd hs (splitOnNl_ne_nil _)
    · have hdef : splitOnNl (c :: (u' ++ m ++ v))
          = if c = nlc then [] :: l :: ls else (c :: l) :: ls := by
        rw [splitOnNl, hs]
      rw [hs] at hmem
      rw [hdef]
      by_cases hc : c = nlc
      · refine ⟨line, ?_, hsub⟩
        rw [if_pos hc]
        exact List.mem_cons_of_mem _ hmem
      · rw [if_neg hc]
        rcases List.mem_cons.mp hmem with rfl | hmem'
        · exact ⟨c :: line, by simp, by simp [isSub, hsub]⟩
        · exact ⟨line, List.mem_cons_of_mem _ hmem', hsub⟩

-- The storage-version marker step (pkg/create_apis.py, set_storage_version),
-- per file content.

/-- `CreateApis.set_storage_version` on one `<kind>_types.go` buffer: do
nothing if the `+kubebuilder:storageversion` marker is already present; else
insert `// +kubebuilder:storageversion` on a new line after the
`+kubebuilder:subresource:status` anchor line, falling back to the
`+kubebuilder:object:root=true` line, and raise `LookupError` when neither
anchor exists. -/
def set_storage_version (content : Str) : PyResult Str :=
  match find_in_file (S "+kubebuilder:storageversion") content with
  | some _ => .ok content
  | none =>
    match find_in_file (S "+kubebuilder:subresource:status") content with
    | some line =>
      .ok (pyReplace line (line ++ nlc :: S "// +kubebuilder:storageversion") content)
    | none =>
      match find_in_file (S "+kubebuilder:object:root=true") content with
      | some line =>
        .ok (pyReplace line (line ++ nlc :: S "// +kubebuilder:storageversion") content)
      | none => .raised (.exn "LookupError")

theorem sv_marker_found_after_insert (content line : Str)
    (hline : line ∈ splitOnNl content) (hne : line ≠ []) :
    (find_in_file (S "+kubebuilder:storageversion")
      (pyReplace line (line ++ nlc :: S "// +kubebuilder:storageversion") content)).isSome := by
  rcases mem_splitOnNl_occ line content hline with ⟨u, v, rfl⟩
  have hocc : isSub line (u ++ line ++ v) = true :=
    (isSub_iff line (u ++ line ++ v)).mpr ⟨u, v, rfl⟩
  rcases pyReplace_has_occ line (line ++ nlc :: S "// +kubebuilder:storageversion")
      (u ++ line ++ v) hne hocc with ⟨u', v', hres⟩
  have hcomment : S "// +kubebuilder:storageversion"
      = S "// " ++ S "+kubebuilder:storageversion" := by decide
  have hres2 : pyReplace line (line ++ nlc :: S "// +kubebuilder:storageversion")
        (u ++ line ++ v)
      = (u' ++ line ++ nlc :: S "// ") ++ S "+kubebuilder:storageversion" ++ v' := by
    rw [hres, hcomment]
    simp
  rcases nlfree_sub_line (S "+kubebuilder:storageversion") (by decide)
      (u' ++ line ++ nlc :: S "// ") v' with ⟨line2, hmem2, hsub2⟩
  rw [← hres2] at hmem2
  exact List.find?_isSome.mpr ⟨line2, hmem2, hsub2⟩

/-- C2 amended, positive half: the storage-version marker insertion is
idempotent — whenever a run of `set_storage_version` succeeds with buffer
`r`, running it again on `r` leaves `r` unchanged, because the inserted
`// +kubebuilder:storageversion` line makes the already-present check fire. -/
theorem set_storage_version_idem (content r : Str)
    (h : set_storage_version content = .ok r) :
    set_storage_version r = .ok r := by
  have hmain : ∀ line, line ∈ splitOnNl content → line ≠ [] →
      r = pyReplace line (line ++ nlc :: S "// +kubebuilder:storageversion") content →
      set_storage_version r = .ok r := by
    intro line hline hne hr
    have hfound := sv_marker_found_after_insert content line hline hne
    rw [← hr] at hfound
    rcases Option.isSome_iff_exists.mp hfound with ⟨l2, hl2⟩
    simp [set_storage_version, hl2]
  cases h1 : find_in_file (S "+kubebuilder:storageversion") content with
  | some l0 =>
    simp only [set_storage_version, h1] at h
    cases h
    simp [set_storage_version, h1]
  | none =>
    simp only [set_storage_version, h1] at h
    cases h2 : find_in_file (S "+kubebuilder:subresource:status") content with
    | some line =>
      simp only [h2] at h
      have h2' : (splitOnNl content).find?
          (fun l => isSub (S "+kubebuilder:subresource:status") l) = some line := h2
      have hmem := List.mem_of_find?_eq_some h2'
      have hp : isSub (S "+kubebuilder:subresource:status") line = true := List.find?_some h2'
      have hr : r = pyReplace line (line ++ nlc :: S "// +kubebuilder:storageversion") content := by
        cases h; rfl
      exact hmain line hmem (isSub_ne_nil _ _ hp (by decide)) hr
    | none =>
      simp only [h2] at h
      cases h3 : find_in_file (S "+kubebuilder:object:root=true") content with
      | some line =>
        simp only [h3] at h
        have h3' : (splitOnNl content).find?
            (fun l => isSub (S "+kubebuilder:object:root=true") l) = some line := h3
        have hmem := List.mem_of_find?_eq_some h3'
        have hp : isSub (S "+kubebuilder:object:root=true") line = true := List.find?_some h3'
        have hr : r = pyReplace line (line ++ nlc :: S "// +kubebuilder:storageversion") content := by
          cases h; rfl
        exact hmain line hmem (isSub_ne_nil _ _ hp (by decide)) hr
      | none =>
        simp only [h3] at h
        cases h

/-- Witness for the idempotence of the storage-version insertion at a
concrete buffer. -/
theorem set_storage_version_idem_witness :
    set_storage_version
        (S "x\n// +kubebuilder:subresource:status\n// +kubebuilder:storageversion\ny")
      = .ok (S "x\n// +kubebuilder:subresource:status\n// +kubebuilder:storageversion\ny") :=
  set_storage_version_idem (S "x\n// +kubebuilder:subresource:status\ny") _ (by decide)

-- The suite_test rewrite (pkg/controllers.py, Controllers._update_suite_test).

/-- `Controllers._update_suite_test` on the suite_test.go buffer.  The group
for the import and scheme edits is the preferred alias if set, else
`project.group(kinds[0], prev_ver)` (an IndexError on an empty kind list);
the import line matching `{group}{prev} "{module}/api/{prev}"` is duplicated
with versions bumped, a new `AddToScheme` block is inserted above the
`+kubebuilder:scaffold:scheme` marker (a TypeError if the marker is absent,
from `str.replace(None, ...)`), and every `&{group}{prev}.{kind}` reference
is switched to the new version. -/
def update_suite_test (preferredAlias : Option Str) (groupOf : Str → Str)
    (prev new_v mod : Str) (kinds : List Str) (content : Str) : PyResult Str :=
  match (match preferredAlias with
    | some g => PyResult.ok g
    | none =>
      match kinds with
      | [] => PyResult.raised (.exn "IndexError")
      | k :: _ => PyResult.ok (groupOf k)) with
  | .raised e => .raised e
  | .ok group =>
    let c1 :=
      match find_in_file (group ++ prev ++ S " \"" ++ mod ++ S "/api/" ++ prev ++ S "\"")
          content with
      | some line => pyReplace line (line ++ nlc :: pyReplace prev new_v line) content
      | none => content
    match find_in_file (S "+kubebuilder:scaffold:scheme") c1 with
    | none => .raised (.exn "TypeError")
    | some sc =>
      let newTxt := S "\terr = " ++ group ++ new_v
          ++ S ".AddToScheme(scheme.Scheme)\n\tExpect(err).NotTo(HaveOccurred())"
      let c2 := pyReplace sc (newTxt ++ nlc :: nlc :: sc) c1
      let c3 := kinds.foldl (fun c k =>
        let g := match preferredAlias with | some g2 => g2 | none => groupOf k
        pyReplace (S "&" ++ g ++ prev ++ S "." ++ k) (S "&" ++ g ++ new_v ++ S "." ++ k) c) c2
      .ok c3

set_option maxRecDepth 100000 in
/-- C2 fails on the code: running `_update_suite_test` a second time on the
buffer produced by a first run changes the buffer again — the old import line
is still present, so the bumped import line and the `AddToScheme` block are
inserted once more.  (Concrete instance: preferred alias `dws`, versions
`v1` to `v2`, module `m`, kind `Workflow`.) -/
theorem update_suite_test_not_idempotent :
    (update_suite_test (some (S "dws")) (fun _ => S "dws") (S "v1") (S "v2") (S "m")
        [S "Workflow"]
        (S "\tdwsv1 \"m/api/v1\"\n// +kubebuilder:scaffold:scheme\n")).andThen
      (fun c => update_suite_test (some (S "dws")) (fun _ => S "dws") (S "v1") (S "v2") (S "m")
        [S "Workflow"] c)
    ≠ update_suite_test (some (S "dws")) (fun _ => S "dws") (S "v1") (S "v2") (S "m")
        [S "Workflow"]
        (S "\tdwsv1 \"m/api/v1\"\n// +kubebuilder:scaffold:scheme\n") := by decide

-- Webhook relocation (pkg/project.py and pkg/webhooks.py).

/-- `Project.find_idx`: the index of the first resource entry with the given
kind and version, or `none` where Python raises. -/
def find_idx : List Resource → Str → Str → Option Nat
  | [], _, _ => none
  | e :: rest, k, v =>
    if e.kind = k ∧ e.version = v then some 0
    else (find_idx rest k v).map (· + 1)

/-- The webhooks block recorded for `(kind, version)`: the `webhooks` field
of the entry `find_idx` selects, or `none` when there is no such entry. -/
def whAt (res : List Resource) (k v : Str) : Option Str :=
  match find_idx res k v with
  | none => none
  | some i =>
    match res[i]? with
    | some e => e.webhooks
    | none => none

/-- `Project.mv_webhooks`: locate the `(kind, from_ver)` and `(kind, to_ver)`
entries (an exception when either is missing); if the source entry has a
`webhooks` section, copy it onto the destination entry and delete it from the
source entry.  (The out-of-range fallback is unreachable: `find_idx` only
returns in-range indices.) -/
def mv_webhooks (res : List Resource) (k from_v to_v : Str) : PyResult (List Resource) :=
  match find_idx res k from_v with
  | none => .raised (.exn "unable to find resource API")
  | some i =>
    match find_idx res k to_v with
    | none => .raised (.exn "unable to find resource API")
    | some j =>
      match res[i]?, res[j]? with
      | some ei, some ej =>
        match ei.webhooks with
        | some w =>
          .ok ((res.set j { ej with webhooks := some w }).set i { ei with webhooks := none })
        | none => .ok res
      | _, _ => .raised (.exn "IndexError")

/-- The `for k in kinds` loop of `MvWebhooks.mv_project_webhooks`, moving the
webhooks of each kind in turn; an exception stops the loop. -/
def foldPyMv : List Str → List Resource → Str → Str → PyResult (List Resource)
  | [], res, _, _ => .ok res
  | k :: ks, res, p, n => (mv_webhooks res k p n).andThen (fun r => foldPyMv ks r p n)

/-- `MvWebhooks.mv_project_webhooks`: compare the kind lists of the two
versions; on mismatch print and `sys.exit(1)` without touching the
descriptor; on match move every kind's webhooks and persist the descriptor
with `project.store()` (the `.ok` result is the stored descriptor). -/
def mv_project_webhooks (p : Project) (prev_v new_v : Str) : PyResult Project :=
  if Project.kinds p prev_v ≠ Project.kinds p new_v then .raised (.exit 1)
  else (foldPyMv (Project.kinds p prev_v) p.resources prev_v new_v).andThen (fun r => .ok ⟨r⟩)

/-- First-defined choice between two optional webhooks blocks. -/
def firstSome (a b : Option Str) : Option Str :=
  match a with
  | some w => some w
  | none => b

theorem find_idx_entry (k v : Str) :
    ∀ (res : List Resource) (i : Nat), find_idx res k v = some i →
      ∃ e, res[i]? = some e ∧ e.kind = k ∧ e.version = v := by
  intro res
  induction res with
  | nil => intro i h; simp [find_idx] at h
  | cons e rest ih =>
    intro i h
    by_cases hc : e.kind = k ∧ e.version = v
    · simp only [find_idx, if_pos hc] at h
      injection h with h0
      subst h0
      exact ⟨e, by simp, hc.1, hc.2⟩
    · simp only [find_idx, if_neg hc] at h
      rcases Option.map_eq_some'.mp h with ⟨i', hi', rfl⟩
      rcases ih i' hi' with ⟨e', he', hk, hv⟩
      exact ⟨e', by simpa [List.getElem?_cons_succ] using he', hk, hv⟩

theorem getElem?_some_lt (res : List Resource) (i : Nat) (e : Resource)
    (h : res[i]? = some e) : i < res.length := by
  by_contra hlt
  rw [List.getElem?_eq_none (Nat.le_of_not_lt hlt)] at h
  cases h

theorem find_idx_set (res : List Resource) :
    ∀ (i : Nat) (a e : Resource), res[i]? = some e →
      a.kind = e.kind → a.version = e.version →
      ∀ k v, find_idx (res.set i a) k v = find_idx res k v := by
  induction res with
  | nil => intro i a e hres _ _ k v; simp at hres
  | cons b rest ih =>
    intro i a e hres hk hv k v
    cases i with
    | zero =>
      have hb : b = e := by simpa using hres
      subst hb
      show find_idx (a :: rest) k v = find_idx (b :: rest) k v
      rw [find_idx, find_idx, hk, hv]
    | succ i' =>
      have hres' : rest[i']? = some e := by simpa using hres
      show find_idx (b :: rest.set i' a) k v = find_idx (b :: rest) k v
      rw [find_idx, find_idx, ih i' a e hres' hk hv k v]

theorem whAt_set (res : List Resource) (i : Nat) (a e : Resource)
    (hres : res[i]? = some e) (hk : a.kind = e.kind) (hv : a.version = e.version) (k v : Str) :
    whAt (res.set i a) k v
      = if find_idx res k v = some i then a.webhooks else whAt res k v := by
  have hfi := find_idx_set res i a e hres hk hv k v
  by_cases hidx : find_idx res k v = some i
  · rw [if_pos hidx]
    have hlt : i < res.length := getElem?_some_lt res i e hres
    simp only [whAt, hfi, hidx]
    rw [List.getElem?_set_self (by simpa using hlt)]
  · rw [if_neg hidx]
    simp only [whAt, hfi]
    cases hfo : find_idx res k v with
    | none => rfl
    | some j =>
      have hij : i ≠ j := fun he => hidx (by rw [he]; exact hfo)
      simp only [hfo]
      rw [List.getElem?_set_ne hij]

theorem mv_ok_spec (res : List Resource) (k p n : Str) (hpn : p ≠ n)
    (i j : Nat) (hip : find_idx res k p = some i) (hjn : find_idx res k n = some j) :
    ∃ res', mv_webhooks res k p n = .ok res' ∧
      (∀ k' v', find_idx res' k' v' = find_idx res k' v') ∧
      whAt res' k p = none ∧
      whAt res' k n = firstSome (whAt res k p) (whAt res k n) ∧
      (∀ k'', k'' ≠ k → ∀ v, whAt res' k'' v = whAt res k'' v) := by
  rcases find_idx_entry k p res i hip with ⟨ei, hei, heik, heip⟩
  rcases find_idx_entry k n res j hjn with ⟨ej, hej, hejk, hejn⟩
  have hij : i ≠ j := by
    intro he
    subst he
    rw [hei] at hej
    injection hej with he2
    subst he2
    exact hpn (heip.symm.trans hejn)
  have hwp : whAt res k p = ei.webhooks := by simp only [whAt, hip, hei]
  have hwn : whAt res k n = ej.webhooks := by simp only [whAt, hjn, hej]
  cases hw : ei.webhooks with
  | none =>
    refine ⟨res, ?_, fun k' v' => rfl, ?_, ?_, fun k'' _ v => rfl⟩
    · simp only [mv_webhooks, hip, hjn, hei, hej, hw]
    · rw [hwp, hw]
    · rw [hwp, hw, hwn]
      rfl
  | some w =>
    have hres1i : (res.set j { ej with webhooks := some w })[i]? = some ei := by
      rw [List.getElem?_set_ne (fun he => hij he.symm)]
      exact hei
    have hfi1 := find_idx_set res j { ej with webhooks := some w } ej hej rfl rfl
    have hfi2 := find_idx_set (res.set j { ej with webhooks := some w }) i
      { ei with webhooks := none } ei hres1i rfl rfl
    refine ⟨(res.set j { ej with webhooks := some w }).set i { ei with webhooks := none },
      ?_, ?_, ?_, ?_, ?_⟩
    · simp only [mv_webhooks, hip, hjn, hei, hej, hw]
    · exact fun k' v' => (hfi2 k' v').trans (hfi1 k' v')
    · rw [whAt_set _ i { ei with webhooks := none } ei hres1i rfl rfl k p]
      have hc : find_idx (res.set j { ej with webhooks := some w }) k p = some i :=
        (hfi1 k p).trans hip
      rw [if_pos hc]
    · rw [whAt_set _ i { ei with webhooks := none } ei hres1i rfl rfl k n]
      have hc1 : find_idx (res.set j { ej with webhooks := some w }) k n = some j :=
        (hfi1 k n).trans hjn
      have hne1 : ¬ find_idx (res.set j { ej with webhooks := some w }) k n = some i := by
        rw [hc1]
        intro he
        injection he with he'
        exact hij he'.symm
      rw [if_neg hne1]
      rw [whAt_set res j { ej with webhooks := some w } ej hej rfl rfl k n, if_pos hjn]
      rw [hwp, hw]
      rfl
    · intro k'' hkk v
      rw [whAt_set _ i { ei with webhooks := none } ei hres1i rfl rfl k'' v]
      have hni : ¬ find_idx (res.set j { ej with webhooks := some w }) k'' v = some i := by
        rw [hfi1 k'' v]
        intro he
        rcases find_idx_entry k'' v res i he with ⟨e0, he0, he0k, _⟩
        rw [hei] at he0
        injection he0 with he0'
        exact hkk (by rw [← he0k, ← he0', heik])
      rw [if_neg hni]
      rw [whAt_set res j { ej with webhooks := some w } ej hej rfl rfl k'' v]
      have hnj : ¬ find_idx res k'' v = some j := by
        intro he
        rcases find_idx_entry k'' v res j he with ⟨e0, he0, he0k, _⟩
        rw [hej] at he0
        injection he0 with he0'
        exact hkk (by rw [← he0k, ← he0', hejk])
      rw [if_neg hnj]

theorem find_idx_isSome_of_entry (v : Str) (e : Resource) :
    ∀ res : List Resource, e ∈ res → e.version = v → (find_idx res e.kind v).isSome := by
  intro res
  induction res with
  | nil => intro hmem _; simp at hmem
  | cons b rest ih =>
    intro hmem hv
    by_cases hc : b.kind = e.kind ∧ b.version = v
    · simp [find_idx, hc]
    · have hne : e ≠ b := by
        intro he
        exact hc ⟨by rw [he], by rw [← he]; exact hv⟩
      have hrest : e ∈ rest := by
        rcases List.mem_cons.mp hmem with he | h
        · exact absurd he.symm hne.symm
        · exact h
      have := ih hrest hv
      simp only [find_idx, if_neg hc]
      cases ho : find_idx rest e.kind v with
      | none => rw [ho] at this; cases this
      | some x => simp [ho]

theorem find_idx_isSome_of_mem_kinds (p : Project) (k v : Str)
    (h : k ∈ Project.kinds p v) : (find_idx p.resources k v).isSome := by
  have h1 : k ∈ (p.resources.filter (fun e => e.api && decide (e.version = v))).map
      (fun e => e.kind) := (sortStr_perm _).mem_iff.mp h
  rcases List.mem_map.mp h1 with ⟨e, hef, rfl⟩
  rcases List.mem_filter.mp hef with ⟨hmem, hcond⟩
  have hv : e.version = v := by
    have := (Bool.and_eq_true ..).mp hcond
    exact of_decide_eq_true this.2
  exact find_idx_isSome_of_entry v e p.resources hmem hv

theorem foldPyMv_spec (resOrig : List Resource) (p n : Str) (hpn : p ≠ n) :
    ∀ (ks : List Str) (res : List Resource),
      ks.Nodup →
      (∀ k' v', find_idx res k' v' = find_idx resOrig k' v') →
      (∀ k ∈ ks, (find_idx resOrig k p).isSome ∧ (find_idx resOrig k n).isSome) →
      (∀ k ∈ ks, whAt res k p = whAt resOrig k p ∧ whAt res k n = whAt resOrig k n) →
      ∃ res', foldPyMv ks res p n = .ok res' ∧
        (∀ k ∈ ks, whAt res' k p = none ∧
          whAt res' k n = firstSome (whAt resOrig k p) (whAt resOrig k n)) ∧
        (∀ k'', k'' ∉ ks → ∀ v, whAt res' k'' v = whAt res k'' v) := by
  intro ks
  induction ks with
  | nil =>
    intro res _ _ _ _
    exact ⟨res, rfl, by simp, fun _ _ _ => rfl⟩
  | cons k rest ih =>
    intro res hnd hinv hsome heq
    have hkmem : k ∈ k :: rest := by simp
    rcases Option.isSome_iff_exists.mp (hsome k hkmem).1 with ⟨i, hi⟩
    rcases Option.isSome_iff_exists.mp (hsome k hkmem).2 with ⟨j, hj⟩
    have hip : find_idx res k p = some i := (hinv k p).trans hi
    have hjn : find_idx res k n = some j := (hinv k n).trans hj
    rcases mv_ok_spec res k p n hpn i j hip hjn with ⟨res1, hmv, hfi1, hwp1, hwn1, hfr1⟩
    have hnd' : rest.Nodup := (List.nodup_cons.mp hnd).2
    have hknotin : k ∉ rest := (List.nodup_cons.mp hnd).1
    have hinv1 : ∀ k' v', find_idx res1 k' v' = find_idx resOrig k' v' :=
      fun k' v' => (hfi1 k' v').trans (hinv k' v')
    have hsome1 : ∀ k2 ∈ rest,
        (find_idx resOrig k2 p).isSome ∧ (find_idx resOrig k2 n).isSome :=
      fun k2 hk2 => hsome k2 (List.mem_cons_of_mem k hk2)
    have heq1 : ∀ k2 ∈ rest,
        whAt res1 k2 p = whAt resOrig k2 p ∧ whAt res1 k2 n = whAt resOrig k2 n := by
      intro k2 hk2
      have hk2k : k2 ≠ k := fun he => hknotin (he ▸ hk2)
      have heqk2 := heq k2 (List.mem_cons_of_mem k hk2)
      exact ⟨(hfr1 k2 hk2k p).trans heqk2.1, (hfr1 k2 hk2k n).trans heqk2.2⟩
    rcases ih res1 hnd' hinv1 hsome1 heq1 with ⟨res', hfold, hpost, hframe⟩
    refine ⟨res', ?_, ?_, ?_⟩
    · show (mv_webhooks res k p n).andThen (fun r => foldPyMv rest r p n) = .ok res'
      rw [hmv]
      exact hfold
    · intro k2 hk2
      by_cases hk2k : k2 = k
      · subst hk2k
        have heqk := heq k2 (by simp)
        constructor
        · rw [hframe k2 hknotin p, hwp1]
        · rw [hframe k2 hknotin n, hwn1, heqk.1, heqk.2]
      · have hk2r : k2 ∈ rest := by
          rcases List.mem_cons.mp hk2 with he | h
          · exact absurd he hk2k
          · exact h
        exact hpost k2 hk2r
    · intro k'' hknot v
      have h1 : k'' ∉ rest := fun hmem => hknot (List.mem_cons_of_mem _ hmem)
      have h2 : k'' ≠ k := fun he => hknot (by simp [he])
      rw [hframe k'' h1 v, hfr1 k'' h2 v]

/-- C6: the webhook relocation first compares the kind lists declared at the
two versions; on any mismatch it exits (code 1) without moving a webhooks
block and without persisting the descriptor, and when the kind sets agree it
returns the persisted descriptor in which, for every kind of the list, the
previous version's record has lost its webhooks block and the new version's
record holds the block the previous version's record had (or keeps its own
when there was none to move). -/
theorem mv_project_webhooks_spec :
    (∀ (p : Project) (prev_v new_v : Str),
      Project.kinds p prev_v ≠ Project.kinds p new_v →
      mv_project_webhooks p prev_v new_v = .raised (.exit 1)) ∧
    (∀ (p : Project) (prev_v new_v : Str),
      prev_v ≠ new_v →
      Project.kinds p prev_v = Project.kinds p new_v →
      (Project.kinds p prev_v).Nodup →
      ∃ p' : Project, mv_project_webhooks p prev_v new_v = .ok p' ∧
        ∀ k ∈ Project.kinds p prev_v,
          whAt p'.resources k prev_v = none ∧
          whAt p'.resources k new_v
            = firstSome (whAt p.resources k prev_v) (whAt p.resources k new_v)) := by
  constructor
  · intro p prev_v new_v hne
    simp [mv_project_webhooks, hne]
  · intro p prev_v new_v hpn heq hnd
    have hsome : ∀ k ∈ Project.kinds p prev_v,
        (find_idx p.resources k prev_v).isSome ∧ (find_idx p.resources k new_v).isSome := by
      intro k hk
      exact ⟨find_idx_isSome_of_mem_kinds p k prev_v hk,
        find_idx_isSome_of_mem_kinds p k new_v (heq ▸ hk)⟩
    rcases foldPyMv_spec p.resources prev_v new_v hpn (Project.kinds p prev_v) p.resources
        hnd (fun _ _ => rfl) hsome (fun _ _ => ⟨rfl, rfl⟩) with ⟨res', hfold, hpost, _⟩
    refine ⟨⟨res'⟩, ?_, hpost⟩
    have hcond : ¬ (Project.kinds p prev_v ≠ Project.kinds p new_v) := fun hc => hc heq
    rw [mv_project_webhooks, if_neg hcond, hfold]
    rfl

/-- A descriptor with kind A at both versions, webhooks on the v1 record. -/
def mvProjA : Project :=
  ⟨[⟨true, S "g", S "A", S "v1", some (S "wh")⟩, ⟨true, S "g", S "A", S "v2", none⟩]⟩

/-- A descriptor whose kind lists at v1 and v2 differ. -/
def mvProjB : Project :=
  ⟨[⟨true, S "g", S "A", S "v1", some (S "wh")⟩, ⟨true, S "g", S "B", S "v2", none⟩]⟩

/-- Witness for C6 at concrete descriptors: a matching pair of kind lists is
moved and persisted, a mismatched pair exits with code 1. -/
theorem mv_project_webhooks_spec_witness :
    (∃ p' : Project, mv_project_webhooks mvProjA (S "v1") (S "v2") = .ok p' ∧
      ∀ k ∈ Project.kinds mvProjA (S "v1"),
        whAt p'.resources k (S "v1") = none ∧
        whAt p'.resources k (S "v2")
          = firstSome (whAt mvProjA.resources k (S "v1")) (whAt mvProjA.resources k (S "v2"))) ∧
    mv_project_webhooks mvProjB (S "v1") (S "v2") = .raised (.exit 1) :=
  ⟨mv_project_webhooks_spec.2 mvProjA (S "v1") (S "v2") (by decide) (by decide) (by decide),
   mv_project_webhooks_spec.1 mvProjB (S "v1") (S "v2") (by decide)⟩
